import Mathlib

/-!
Verification of the sparse-octree CPU rasterizer core in `src/octree_draw.cpp`
(the cubemap variant: `SubFaceRenderer::traverse`, `SubFaceRenderer::paint`,
`FaceRenderer::render`, and the per-face pipeline of `octree_draw`).

The quadtree coverage map (`quadtree.h`) and the scene constants (`art.h`) are
not part of the sources; those parts are modelled from the specification, as
marked in their doc comments.  Machine integers are modelled as mathematical
integers (`Int`); signed overflow is undefined behaviour in the source, so the
embedding agrees with the source on all executions the source defines.
C++ integer division `/` (truncation toward zero) is `Int.tdiv`.
-/

/-- Modelled from the spec: `SCENE_SIZE = 2^26` (`art.h` is absent from the
sources; the spec fixes `SCENE_DEPTH = 26`, `SCENE_SIZE = 2^26`).  This is the
constant `ONE` of `SubFaceRenderer`. -/
def ONE : Int := 67108864

/-- The sentinel child index `~0u = 0xFFFFFFFF` (uint32_t all-ones). -/
def ALL_ONES : Nat := 4294967295

/-- An octree node of the read-only arena: eight child indices and eight
per-child average colors (negative = absent child), as in `octree.h`'s use
sites `root[index].child[i]` / `root[index].avgcolor[i]`. -/
structure OctNode where
  child : Nat → Nat
  avgcolor : Nat → Int

/-- The mutable quadtree state of `quadtree<10> face`: the per-node coverage
bits `map[]` and the pixel color buffer `face[]` (called `facebuf` here to
avoid confusion with the global variable `face`). -/
structure QState where
  map : Nat → Bool
  facebuf : Nat → Int

/-- Modelled from the spec: `set_face(leaf_index, color)` of the absent
`quadtree.h` stores `color` at pixel `leaf_index - L` and sets
`map[leaf_index] = false`. -/
def QState.set_face (st : QState) (L r : Nat) (color : Int) : QState :=
  ⟨fun q => if q = r then false else st.map q,
   fun p => if p = r - L then color else st.facebuf p⟩

/-- Modelled from the spec: `compute(r)` of the absent `quadtree.h` recomputes
`map[r]` for an internal node as the OR of its four children
`4r+4, 4r+5, 4r+6, 4r+7`. -/
def QState.compute (st : QState) (r : Nat) : QState :=
  ⟨fun q => if q = r then (st.map (r*4+4) || st.map (r*4+5) || st.map (r*4+6) || st.map (r*4+7))
            else st.map q,
   st.facebuf⟩

/-- The compile-time parameters of one `SubFaceRenderer<DX,DY,C,AX,AY,AZ>`
instantiation together with the ambient globals: the octree arena `root` and
the quadtree leaf-level threshold `Q::L` (modelled from the spec, `quadtree.h`
being absent: nodes `r < L` have internal children, nodes `r ≥ L` have leaf
children). -/
structure Ctx where
  DX : Int
  DY : Int
  C : Nat
  AX : Nat
  AY : Nat
  AZ : Nat
  root : Nat → OctNode
  L : Nat

/-- The x-occlusion test of `traverse` (line 34) and `paint` (line 97):
`x+d-(1-DX)*(xp+dp) <= -ONE || ONE <= x-(1+DX)*xp`. -/
def occludedX (DX x d xp dp : Int) : Bool :=
  decide (x + d - (1 - DX) * (xp + dp) ≤ -ONE) || decide (ONE ≤ x - (1 + DX) * xp)

/-- The y-occlusion test of `traverse` (line 35) and `paint` (line 98):
`y+d-(1-DY)*(yp+dp) <= -ONE || ONE <= y-(1+DY)*yp`. -/
def occludedY (DY y d yp dp : Int) : Bool :=
  decide (y + d - (1 - DY) * (yp + dp) ≤ -ONE) || decide (ONE ≤ y - (1 + DY) * yp)

/-- `SubFaceRenderer::paint` (lines 96-101): re-apply the occlusion tests;
if they pass, `face.set_face(r, color); face.map[r] = 0`. -/
def paint (ctx : Ctx) (st : QState) (r : Nat) (color : Int) (x y d xp yp dp : Int) : QState :=
  if occludedX ctx.DX x d xp dp then st
  else if occludedY ctx.DY y d yp dp then st
  else
    let s1 := st.set_face ctx.L r color
    ⟨fun q => if q = r then false else s1.map q, s1.facebuf⟩

/-- One recursive octree-child call description: the geometric octant `tag`
(the subscript `C^...` used in the source), the octree index and color passed,
and the child coordinates `(cx, cy, cd)`; `xp, yp, dp` are shared with the
parent call. -/
structure OCall where
  tag : Nat
  idx : Nat
  col : Int
  cx : Int
  cy : Int
  cd : Int
deriving DecidableEq, Repr

/-- Guard of one concrete-octree child call: the call is made only when
`s.avgcolor[i] >= 0` (lines 49-57). -/
def octGate (s : OctNode) (t : Nat) (cx cy cd : Int) : List OCall :=
  if 0 ≤ s.avgcolor t then [⟨t, s.child t, s.avgcolor t, cx, cy, cd⟩] else []

/-- The gated child calls of the concrete-index octree branch (lines 48-57),
in source order: the four near children `C, C^AX, C^AY, C^AX^AY` (only when
`dn > 0`), then the four far children `C^AZ, C^AX^AZ, C^AY^AZ, C^AX^AY^AZ`.
Arguments `xn yn dn` are the near-plane coordinates, `x2 y2 d2` the doubled
far-plane coordinates. -/
def concCalls (ctx : Ctx) (s : OctNode) (xn yn dn x2 y2 d2 : Int) : List OCall :=
  (if 0 < dn then
    octGate s ctx.C (xn + ctx.DX*ONE) (yn + ctx.DY*ONE) dn ++
    octGate s (ctx.C ^^^ ctx.AX) (xn - ctx.DX*ONE) (yn + ctx.DY*ONE) dn ++
    octGate s (ctx.C ^^^ ctx.AY) (xn + ctx.DX*ONE) (yn - ctx.DY*ONE) dn ++
    octGate s (ctx.C ^^^ ctx.AX ^^^ ctx.AY) (xn - ctx.DX*ONE) (yn - ctx.DY*ONE) dn
  else []) ++
  (octGate s (ctx.C ^^^ ctx.AZ) (x2 + ctx.DX*ONE) (y2 + ctx.DY*ONE) d2 ++
   octGate s (ctx.C ^^^ ctx.AX ^^^ ctx.AZ) (x2 - ctx.DX*ONE) (y2 + ctx.DY*ONE) d2 ++
   octGate s (ctx.C ^^^ ctx.AY ^^^ ctx.AZ) (x2 + ctx.DX*ONE) (y2 - ctx.DY*ONE) d2 ++
   octGate s (ctx.C ^^^ ctx.AX ^^^ ctx.AY ^^^ ctx.AZ) (x2 - ctx.DX*ONE) (y2 - ctx.DY*ONE) d2)

/-- The child calls of the sentinel (homogeneous infinite block) octree branch
(lines 58-69), in source order: the three near children other than the nearest
cube `C` (skipped, per the source comment, to avoid infinite recursion; only
when `dn > 0`), then all four far children.  Every call keeps the sentinel
index `~0u` and the parent color. -/
def sentCalls (ctx : Ctx) (color : Int) (xn yn dn x2 y2 d2 : Int) : List OCall :=
  (if 0 < dn then
    [⟨ctx.C ^^^ ctx.AX, ALL_ONES, color, xn - ctx.DX*ONE, yn + ctx.DY*ONE, dn⟩,
     ⟨ctx.C ^^^ ctx.AY, ALL_ONES, color, xn + ctx.DX*ONE, yn - ctx.DY*ONE, dn⟩,
     ⟨ctx.C ^^^ ctx.AX ^^^ ctx.AY, ALL_ONES, color, xn - ctx.DX*ONE, yn - ctx.DY*ONE, dn⟩]
  else []) ++
  [⟨ctx.C ^^^ ctx.AZ, ALL_ONES, color, x2 + ctx.DX*ONE, y2 + ctx.DY*ONE, d2⟩,
   ⟨ctx.C ^^^ ctx.AX ^^^ ctx.AZ, ALL_ONES, color, x2 - ctx.DX*ONE, y2 + ctx.DY*ONE, d2⟩,
   ⟨ctx.C ^^^ ctx.AY ^^^ ctx.AZ, ALL_ONES, color, x2 + ctx.DX*ONE, y2 - ctx.DY*ONE, d2⟩,
   ⟨ctx.C ^^^ ctx.AX ^^^ ctx.AY ^^^ ctx.AZ, ALL_ONES, color, x2 - ctx.DX*ONE, y2 - ctx.DY*ONE, d2⟩]

/-- The octree-branch child list of `traverse`: concrete children from the
node `root[index]` when `~index` is nonzero (`index != ALL_ONES`), sentinel
children otherwise.  `xn = (x-xp)*2`, `yn = (y-yp)*2`, `dn = (d-dp)*2` and the
doubled `x*2, y*2, d*2` are computed here as in lines 40-45. -/
def octCalls (ctx : Ctx) (index : Nat) (color : Int) (x y d xp yp dp : Int) : List OCall :=
  if index ≠ ALL_ONES then
    concCalls ctx (ctx.root index) ((x - xp)*2) ((y - yp)*2) ((d - dp)*2) (x*2) (y*2) (d*2)
  else
    sentCalls ctx color ((x - xp)*2) ((y - yp)*2) ((d - dp)*2) (x*2) (y*2) (d*2)

/-- Sequentialization of the octree-branch child calls: run each call on the
threaded quadtree state and return `true` as soon as one call returns `true`
(the `if (... && traverse(...)) return true;` cascade); `none` propagates fuel
exhaustion. -/
def runSeq (f : Nat → Int → Int → Int → Int → QState → Option (Bool × QState)) :
    List OCall → QState → Option (Bool × QState)
  | [], st => some (false, st)
  | c :: cs, st =>
    match f c.idx c.col c.cx c.cy c.cd st with
    | none => none
    | some (true, s1) => some (true, s1)
    | some (false, s1) => runSeq f cs s1

/-- One quadtree-child descriptor of the quadtree branch: the child node index
`r*4+4+i` and its coordinates `(kx, ky, kxp, kyp)`; `d` and `dp` (already
halved) are shared. -/
structure QKid where
  node : Nat
  kx : Int
  ky : Int
  kxp : Int
  kyp : Int
deriving DecidableEq, Repr

/-- The four quadtree children of `quadnode = r` with their coordinates
(lines 72-89): after `d /= 2; dp /= 2`, `xm = x+d`, `xmp = xp+dp`,
`ym = y+d`, `ymp = yp+dp`. -/
def quadKids (r : Nat) (x y d xp yp dp : Int) : List QKid :=
  [⟨r*4+4, x, y, xp, yp⟩,
   ⟨r*4+5, x + Int.tdiv d 2, y, xp + Int.tdiv dp 2, yp⟩,
   ⟨r*4+6, x, y + Int.tdiv d 2, xp, yp + Int.tdiv dp 2⟩,
   ⟨r*4+7, x + Int.tdiv d 2, y + Int.tdiv d 2, xp + Int.tdiv dp 2, yp + Int.tdiv dp 2⟩]

/-- Sequentialization of the quadtree-branch child calls: each child is
processed only if its coverage bit `map[r*4+4+i]` is set at that moment; the
boolean results of the child calls are discarded (as in lines 80-89), only the
state is threaded. -/
def quadRun (g : Nat → Int → Int → Int → Int → QState → Option QState) :
    List QKid → QState → Option QState
  | [], st => some st
  | k :: ks, st =>
    if st.map k.node then
      match g k.node k.kx k.ky k.kxp k.kyp st with
      | none => none
      | some s1 => quadRun g ks s1
    else quadRun g ks st

/-- The quadtree-recursion branch of `traverse` (lines 71-93): descend to the
four quadtree children of `r` (via `desc` when `r < Q::L`, via `paint`
otherwise), then `face.compute(r); return !face.map[r]`. -/
def quadPhase (ctx : Ctx) (desc : Nat → Int → Int → Int → Int → QState → Option QState)
    (st : QState) (r : Nat) (color : Int) (x y d xp yp dp : Int) : Option (Bool × QState) :=
  match (if r < ctx.L then
           quadRun desc (quadKids r x y d xp yp dp) st
         else
           quadRun (fun r2 kx ky kxp kyp s =>
               some (paint ctx s r2 color kx ky (Int.tdiv d 2) kxp kyp (Int.tdiv dp 2)))
             (quadKids r x y d xp yp dp) st) with
  | none => none
  | some st1 => some (!(st1.compute r).map r, st1.compute r)

/-- `SubFaceRenderer<DX,DY,C,AX,AY,AZ>::traverse(r, index, color, x, y, d, xp,
yp, dp)` (lines 28-94), as a fuel-indexed function: `none` means the recursion
did not complete within `fuel` nested levels, `some (b, st')` means the C++
function returns `b` leaving the quadtree in state `st'`. -/
def traverse (ctx : Ctx) (fuel : Nat) (st : QState) (r index : Nat) (color : Int)
    (x y d xp yp dp : Int) : Option (Bool × QState) :=
  match fuel with
  | 0 => none
  | Nat.succ n =>
    if occludedX ctx.DX x d xp dp then some (false, st)
    else if occludedY ctx.DY y d yp dp then some (false, st)
    else if d ≤ 2*ONE then
      runSeq (fun idx col kx ky kd s => traverse ctx n s r idx col kx ky kd xp yp dp)
        (octCalls ctx index color x y d xp yp dp) st
    else
      quadPhase ctx
        (fun r2 kx ky kxp kyp s =>
          (traverse ctx n s r2 index color kx ky (Int.tdiv d 2) kxp kyp (Int.tdiv dp 2)).map Prod.snd)
        st r color x y d xp yp dp

/-- Refinement comparison only. Modelled from the spec: the branch-selection
condition of the spec's traverse, "If depth ≥ 0 and the subvolume's projected
x_hi − x_lo at corner C exceeds twice the scene size, recurse into the
octree". -/
def specOctreeDescent (depth extent : Int) : Prop := 0 ≤ depth ∧ 2*ONE < extent

/-- The branch-selection condition actually used by `traverse` (line 38):
recurse into the octree exactly when `d <= 2*ONE`. -/
def octreeBranchCond (d : Int) : Bool := decide (d ≤ 2*ONE)

/-- One root-quadrant call of `FaceRenderer::render` (lines 120-123): the call
`SubFaceRenderer<...>::traverse(q, 0, 0, cx, cy, cQ, cxp, cyp, ONE)` is made
only when `face.map[q]` is set; its boolean result is discarded. -/
def rootStep (ctx : Ctx) (fuel : Nat) (q : Nat) (cx cy cQ cxp cyp : Int)
    (st : QState) : Option QState :=
  if st.map q then (traverse ctx fuel st q 0 0 cx cy cQ cxp cyp ONE).map Prod.snd
  else some st

/-- `FaceRenderer<C,AX,AY,AZ>::render(x, y, Q)` (lines 118-124): the four
root-quadrant calls with their `SubFaceRenderer` instantiations, in source
order. -/
def renderFace (C AX AY AZ : Nat) (root : Nat → OctNode) (L : Nat) (fuel : Nat)
    (x y Q : Int) (st : QState) : Option QState :=
  match rootStep ⟨-1, -1, C ^^^ AX ^^^ AY, AX, AY, AZ, root, L⟩ fuel 0 (x-Q) (y-Q) Q (-ONE) (-ONE) st with
  | none => none
  | some s1 =>
  match rootStep ⟨1, -1, C ^^^ AY, AX, AY, AZ, root, L⟩ fuel 1 x (y-Q) Q 0 (-ONE) s1 with
  | none => none
  | some s2 =>
  match rootStep ⟨-1, 1, C ^^^ AX, AX, AY, AZ, root, L⟩ fuel 2 (x-Q) y Q (-ONE) 0 s2 with
  | none => none
  | some s3 =>
  rootStep ⟨1, 1, C, AX, AY, AZ, root, L⟩ fuel 3 x y Q 0 0 s3

/-- The sentinel color written by `memset(face.face, 0xc0, sizeof(face.face))`
(line 222): each 32-bit pixel becomes `0xC0C0C0C0`. -/
def CLEAR_COLOR : Int := 3233857728

/-- The per-face query of `octree_draw` (lines 221-225): clear the pixel
buffer to the sentinel color, then render the face. -/
def drawFace (C AX AY AZ : Nat) (root : Nat → OctNode) (L : Nat) (fuel : Nat)
    (x y Q : Int) (st : QState) : Option QState :=
  renderFace C AX AY AZ root L fuel x y Q ⟨st.map, fun _ => CLEAR_COLOR⟩

/-- A frame property of the traversal on the quadtree state: any pixel the
run changed belongs to a painted leaf (index at least `4L+4`) whose coverage
bit is cleared afterwards, and cleared coverage bits of leaves are never set
again. -/
def FrameP (L : Nat) (s s' : QState) : Prop :=
  (∀ p, s'.facebuf p ≠ s.facebuf p → (4*L+4 ≤ L + p ∧ s'.map (L + p) = false)) ∧
  (∀ m, 4*L+4 ≤ m → s.map m = false → s'.map m = false)

/-- An octree node with all eight children absent, for concrete instances. -/
def node0 : OctNode := ⟨fun _ => 0, fun _ => -1⟩

/-- A concrete renderer context for instances: the quadrant-3 instantiation
`SubFaceRenderer<1,1,C,AX,AY,AZ>` with `C = 0`, `AX,AY,AZ = 1,2,4`, an arena
of absent-children nodes, and quadtree threshold `L = 5`. -/
def ctxS : Ctx := ⟨1, 1, 0, 1, 2, 4, fun _ => node0, 5⟩

/-- Quadtree state with every coverage bit set, over a zero color buffer. -/
def stAll : QState := ⟨fun _ => true, fun _ => 0⟩

/-- Quadtree state with only node 1 marked unpainted. -/
def stOne : QState := ⟨fun q => decide (q = 1), fun _ => 0⟩

/-- Quadtree state with every coverage bit cleared. -/
def stNone : QState := ⟨fun _ => false, fun _ => 0⟩

/-- Quadtree state with every coverage bit set except node 8, over a zero
color buffer. -/
def stC4 : QState := ⟨fun q => !(decide (q = 8)), fun _ => 0⟩

/-- An octree node whose octant 3 is absent (negative average color) while all
other octants are concrete children, for concrete instances. -/
def nodeM : OctNode := ⟨fun _ => 2, fun t => if t = 3 then -1 else 9⟩

/-- The context `ctxS` with an arena of `nodeM` nodes. -/
def ctxM : Ctx := ⟨1, 1, 0, 1, 2, 4, fun _ => nodeM, 5⟩

theorem traverse_succ (ctx : Ctx) (n : Nat) (st : QState) (r index : Nat) (color x y d xp yp dp : Int) :
    traverse ctx (n+1) st r index color x y d xp yp dp =
      if occludedX ctx.DX x d xp dp then some (false, st)
      else if occludedY ctx.DY y d yp dp then some (false, st)
      else if d ≤ 2*ONE then
        runSeq (fun idx col kx ky kd s => traverse ctx n s r idx col kx ky kd xp yp dp)
          (octCalls ctx index color x y d xp yp dp) st
      else
        quadPhase ctx
          (fun r2 kx ky kxp kyp s =>
            (traverse ctx n s r2 index color kx ky (Int.tdiv d 2) kxp kyp (Int.tdiv dp 2)).map Prod.snd)
          st r color x y d xp yp dp := rfl

theorem trav_occl_skip (ctx : Ctx) (n : Nat) (st : QState) (r index : Nat) (color x y d xp yp dp : Int)
    (h : occludedX ctx.DX x d xp dp = true ∨ occludedY ctx.DY y d yp dp = true) :
    traverse ctx (n+1) st r index color x y d xp yp dp = some (false, st) := by
  rw [traverse_succ]
  rcases h with h | h
  · rw [if_pos h]
  · by_cases hx : occludedX ctx.DX x d xp dp = true
    · rw [if_pos hx]
    · rw [if_neg hx, if_pos h]

theorem paint_map_other (ctx : Ctx) (st : QState) (r : Nat) (color : Int) (x y d xp yp dp : Int)
    (q : Nat) (hq : q ≠ r) :
    (paint ctx st r color x y d xp yp dp).map q = st.map q := by
  unfold paint
  split
  · rfl
  · split
    · rfl
    · simp [QState.set_face, hq]

theorem paint_facebuf_other (ctx : Ctx) (st : QState) (r : Nat) (color : Int) (x y d xp yp dp : Int)
    (p : Nat) (hp : p ≠ r - ctx.L) :
    (paint ctx st r color x y d xp yp dp).facebuf p = st.facebuf p := by
  unfold paint
  split
  · rfl
  · split
    · rfl
    · simp [QState.set_face, hp]

theorem paint_hit (ctx : Ctx) (st : QState) (r : Nat) (color : Int) (x y d xp yp dp : Int)
    (hx : occludedX ctx.DX x d xp dp = false) (hy : occludedY ctx.DY y d yp dp = false) :
    (paint ctx st r color x y d xp yp dp).map r = false ∧
    (paint ctx st r color x y d xp yp dp).facebuf (r - ctx.L) = color := by
  unfold paint
  rw [hx, hy]
  simp [QState.set_face]

theorem paint_occl (ctx : Ctx) (st : QState) (r : Nat) (color : Int) (x y d xp yp dp : Int)
    (h : occludedX ctx.DX x d xp dp = true ∨ occludedY ctx.DY y d yp dp = true) :
    paint ctx st r color x y d xp yp dp = st := by
  unfold paint
  rcases h with h | h
  · rw [if_pos h]
  · by_cases hx : occludedX ctx.DX x d xp dp = true
    · rw [if_pos hx]
    · rw [if_neg hx, if_pos h]

theorem runSeq_ret (rr : Nat) (f : Nat → Int → Int → Int → Int → QState → Option (Bool × QState))
    (hf : ∀ idx col kx ky kd s b s', s.map rr = true → f idx col kx ky kd s = some (b, s') →
      b = !s'.map rr) :
    ∀ (cs : List OCall) (st : QState) (b : Bool) (st' : QState), st.map rr = true →
      runSeq f cs st = some (b, st') → b = !st'.map rr := by
  intro cs
  induction cs with
  | nil =>
    intro st b st' hpre h
    rw [runSeq] at h
    injection h with h1
    injection h1 with hb hst
    subst hb; subst hst
    simp [hpre]
  | cons c cs ih =>
    intro st b st' hpre h
    rw [runSeq] at h
    split at h
    · exact absurd h (by simp)
    · next s1 heq =>
      injection h with h1
      injection h1 with hb hst
      subst hb; subst hst
      exact hf _ _ _ _ _ _ _ _ hpre heq
    · next s1 heq =>
      have hb1 := hf _ _ _ _ _ _ _ _ hpre heq
      have hs1 : s1.map rr = true := by
        cases hmr : s1.map rr
        · rw [hmr] at hb1; simp at hb1
        · rfl
      exact ih s1 b st' hs1 h

theorem trav_inv (ctx : Ctx) : ∀ (fuel : Nat) (st : QState) (r index : Nat)
    (color x y d xp yp dp : Int) (b : Bool) (st' : QState),
    st.map r = true → traverse ctx fuel st r index color x y d xp yp dp = some (b, st') →
    b = !st'.map r := by
  intro fuel
  induction fuel with
  | zero =>
    intro st r index color x y d xp yp dp b st' hpre h
    rw [show traverse ctx 0 st r index color x y d xp yp dp = none from rfl] at h
    cases h
  | succ n ih =>
    intro st r index color x y d xp yp dp b st' hpre h
    rw [traverse_succ] at h
    by_cases hx : occludedX ctx.DX x d xp dp = true
    · rw [if_pos hx] at h
      injection h with h1
      injection h1 with hb hst
      subst hb; subst hst
      simp [hpre]
    · rw [if_neg hx] at h
      by_cases hy : occludedY ctx.DY y d yp dp = true
      · rw [if_pos hy] at h
        injection h with h1
        injection h1 with hb hst
        subst hb; subst hst
        simp [hpre]
      · rw [if_neg hy] at h
        by_cases hd : d ≤ 2*ONE
        · rw [if_pos hd] at h
          exact runSeq_ret r _
            (fun idx col kx ky kd s b2 s2 hp he => ih s r idx col kx ky kd xp yp dp b2 s2 hp he)
            _ st b st' hpre h
        · rw [if_neg hd] at h
          rw [quadPhase] at h
          split at h
          · exact absurd h (by simp)
          · next st1 heq =>
            injection h with h1
            injection h1 with hb hst
            subst hb; subst hst
            rfl

theorem FrameP_rfl (L : Nat) (s : QState) : FrameP L s s := by
  constructor
  · intro p hp; exact absurd rfl hp
  · intro m _ hm; exact hm

theorem FrameP_trans (L : Nat) (s s1 s2 : QState) (h1 : FrameP L s s1) (h2 : FrameP L s1 s2) :
    FrameP L s s2 := by
  constructor
  · intro p hp
    by_cases he : s2.facebuf p = s1.facebuf p
    · have hne : s1.facebuf p ≠ s.facebuf p := fun hc => hp (he.trans hc)
      obtain ⟨hb, hm⟩ := h1.1 p hne
      exact ⟨hb, h2.2 _ hb hm⟩
    · exact h2.1 p he
  · intro m hb hm
    exact h2.2 m hb (h1.2 m hb hm)

theorem paint_frame (ctx : Ctx) (st : QState) (r : Nat) (color : Int) (x y d xp yp dp : Int)
    (hr : 4*ctx.L+4 ≤ r) : FrameP ctx.L st (paint ctx st r color x y d xp yp dp) := by
  unfold paint
  split
  · exact FrameP_rfl _ _
  · split
    · exact FrameP_rfl _ _
    · constructor
      · intro p hp
        simp only [QState.set_face] at hp ⊢
        by_cases he : p = r - ctx.L
        · subst he
          have hLp : ctx.L + (r - ctx.L) = r := by omega
          rw [hLp]
          constructor
          · omega
          · simp
        · rw [if_neg he] at hp
          exact absurd rfl hp
      · intro m hb hm
        simp only [QState.set_face]
        by_cases he : m = r
        · simp [he]
        · simp [he, hm]

theorem compute_frame (L : Nat) (st : QState) (r : Nat) (hr : r < 4*L+4) :
    FrameP L st (st.compute r) := by
  constructor
  · intro p hp
    simp only [QState.compute] at hp
    exact absurd rfl hp
  · intro m hb hm
    have : m ≠ r := by omega
    simp [QState.compute, this, hm]

theorem runSeq_frame (L : Nat) (f : Nat → Int → Int → Int → Int → QState → Option (Bool × QState)) :
    ∀ (cs : List OCall) (st : QState) (b : Bool) (st' : QState),
    (∀ c ∈ cs, ∀ s bb s', f c.idx c.col c.cx c.cy c.cd s = some (bb, s') → FrameP L s s') →
    runSeq f cs st = some (b, st') → FrameP L st st' := by
  intro cs
  induction cs with
  | nil =>
    intro st b st' _ h
    rw [runSeq] at h
    injection h with h1
    injection h1 with _ hst
    subst hst
    exact FrameP_rfl _ _
  | cons c cs ih =>
    intro st b st' hf h
    rw [runSeq] at h
    split at h
    · exact absurd h (by simp)
    · next s1 heq =>
      injection h with h1
      injection h1 with _ hst
      subst hst
      exact hf c (by simp) _ _ _ heq
    · next s1 heq =>
      exact FrameP_trans _ _ _ _ (hf c (by simp) _ _ _ heq)
        (ih s1 b st' (fun c2 hc2 => hf c2 (by simp [hc2])) h)

theorem quadRun_frame (L : Nat) (g : Nat → Int → Int → Int → Int → QState → Option QState) :
    ∀ (ks : List QKid) (st st' : QState),
    (∀ k ∈ ks, ∀ s s', g k.node k.kx k.ky k.kxp k.kyp s = some s' → FrameP L s s') →
    quadRun g ks st = some st' → FrameP L st st' := by
  intro ks
  induction ks with
  | nil =>
    intro st st' _ h
    rw [quadRun] at h
    injection h with hst
    subst hst
    exact FrameP_rfl _ _
  | cons k ks ih =>
    intro st st' hg h
    rw [quadRun] at h
    split at h
    · split at h
      · exact absurd h (by simp)
      · next s1 heq =>
        exact FrameP_trans _ _ _ _ (hg k (by simp) _ _ heq)
          (ih s1 st' (fun k2 hk2 => hg k2 (by simp [hk2])) h)
    · exact ih st st' (fun k2 hk2 => hg k2 (by simp [hk2])) h

theorem quadKids_mem (r : Nat) (x y d xp yp dp : Int) (k : QKid)
    (hk : k ∈ quadKids r x y d xp yp dp) : r*4+4 ≤ k.node ∧ k.node ≤ r*4+7 := by
  simp only [quadKids, List.mem_cons, List.not_mem_nil, or_false] at hk
  rcases hk with hk | hk | hk | hk
  all_goals subst hk
  all_goals dsimp
  all_goals omega

theorem trav_frame (ctx : Ctx) : ∀ (fuel : Nat) (st : QState) (r index : Nat)
    (color x y d xp yp dp : Int) (b : Bool) (st' : QState), r < 4*ctx.L+4 →
    traverse ctx fuel st r index color x y d xp yp dp = some (b, st') →
    FrameP ctx.L st st' := by
  intro fuel
  induction fuel with
  | zero =>
    intro st r index color x y d xp yp dp b st' hr h
    rw [show traverse ctx 0 st r index color x y d xp yp dp = none from rfl] at h
    cases h
  | succ n ih =>
    intro st r index color x y d xp yp dp b st' hr h
    rw [traverse_succ] at h
    by_cases hx : occludedX ctx.DX x d xp dp = true
    · rw [if_pos hx] at h
      injection h with h1
      injection h1 with _ hst
      subst hst
      exact FrameP_rfl _ _
    · rw [if_neg hx] at h
      by_cases hy : occludedY ctx.DY y d yp dp = true
      · rw [if_pos hy] at h
        injection h with h1
        injection h1 with _ hst
        subst hst
        exact FrameP_rfl _ _
      · rw [if_neg hy] at h
        by_cases hd : d ≤ 2*ONE
        · rw [if_pos hd] at h
          exact runSeq_frame ctx.L _ _ st b st'
            (fun c _ s bb s' he => ih s r c.idx c.col c.cx c.cy c.cd xp yp dp bb s' hr he) h
        · rw [if_neg hd] at h
          rw [quadPhase] at h
          split at h
          · exact absurd h (by simp)
          · next st1 heq =>
            injection h with h1
            injection h1 with _ hst
            subst hst
            refine FrameP_trans _ _ _ _ ?_ (compute_frame ctx.L st1 r hr)
            by_cases hrL : r < ctx.L
            · rw [if_pos hrL] at heq
              refine quadRun_frame ctx.L _ _ st st1 ?_ heq
              intro k hk s s' he
              have hb := quadKids_mem r x y d xp yp dp k hk
              cases hres : traverse ctx n s k.node index color k.kx k.ky (Int.tdiv d 2) k.kxp k.kyp (Int.tdiv dp 2) with
              | none => rw [hres] at he; cases he
              | some bs =>
                rw [hres] at he
                injection he with hs'
                subst hs'
                exact ih s k.node index color k.kx k.ky (Int.tdiv d 2) k.kxp k.kyp (Int.tdiv dp 2)
                  bs.1 bs.2 (by omega) (by rw [hres])
            · rw [if_neg hrL] at heq
              refine quadRun_frame ctx.L _ _ st st1 ?_ heq
              intro k hk s s' he
              have hb := quadKids_mem r x y d xp yp dp k hk
              injection he with hs'
              subst hs'
              exact paint_frame ctx s k.node color k.kx k.ky (Int.tdiv d 2) k.kxp k.kyp
                (Int.tdiv dp 2) (by omega)

theorem rootStep_frame (ctx : Ctx) (fuel : Nat) (q : Nat) (cx cy cQ cxp cyp : Int)
    (st s' : QState) (hq : q < 4*ctx.L+4)
    (h : rootStep ctx fuel q cx cy cQ cxp cyp st = some s') : FrameP ctx.L st s' := by
  rw [rootStep] at h
  split at h
  · cases hres : traverse ctx fuel st q 0 0 cx cy cQ cxp cyp ONE with
    | none => rw [hres] at h; cases h
    | some bs =>
      rw [hres] at h
      injection h with hs'
      subst hs'
      exact trav_frame ctx fuel st q 0 0 cx cy cQ cxp cyp ONE bs.1 bs.2 hq (by rw [hres])
  · injection h with hs'
    subst hs'
    exact FrameP_rfl _ _

theorem renderFace_frame (C AX AY AZ : Nat) (root : Nat → OctNode) (L : Nat) (fuel : Nat)
    (x y Q : Int) (st st' : QState)
    (h : renderFace C AX AY AZ root L fuel x y Q st = some st') : FrameP L st st' := by
  rw [renderFace] at h
  split at h
  · exact absurd h (by simp)
  · next s1 h1 =>
    split at h
    · exact absurd h (by simp)
    · next s2 h2 =>
      split at h
      · exact absurd h (by simp)
      · next s3 h3 =>
        exact FrameP_trans _ _ _ _ (rootStep_frame _ _ _ _ _ _ _ _ _ _ (by omega) h1)
          (FrameP_trans _ _ _ _ (rootStep_frame _ _ _ _ _ _ _ _ _ _ (by omega) h2)
            (FrameP_trans _ _ _ _ (rootStep_frame _ _ _ _ _ _ _ _ _ _ (by omega) h3)
              (rootStep_frame _ _ _ _ _ _ _ _ _ _ (by omega) h)))

theorem quadRun_pt_cons (ctx : Ctx) (color d1 dp1 : Int) (k : QKid) (ks : List QKid) (st : QState) :
    quadRun (fun r2 kx ky kxp kyp s => some (paint ctx s r2 color kx ky d1 kxp kyp dp1)) (k :: ks) st =
    quadRun (fun r2 kx ky kxp kyp s => some (paint ctx s r2 color kx ky d1 kxp kyp dp1)) ks
      (if st.map k.node then paint ctx st k.node color k.kx k.ky d1 k.kxp k.kyp dp1 else st) := by
  by_cases h : st.map k.node = true
  · rw [quadRun, if_pos h, if_pos h]
  · rw [quadRun, if_neg h, if_neg h]

theorem quadRun_isSome (g : Nat → Int → Int → Int → Int → QState → Option QState) :
    ∀ (ks : List QKid) (st : QState),
    (∀ k ∈ ks, ∀ s, (g k.node k.kx k.ky k.kxp k.kyp s).isSome = true) →
    (quadRun g ks st).isSome = true := by
  intro ks
  induction ks with
  | nil => intro st _; rfl
  | cons k ks ih =>
    intro st hg
    rw [quadRun]
    by_cases h : st.map k.node = true
    · rw [if_pos h]
      cases hres : g k.node k.kx k.ky k.kxp k.kyp st with
      | none => exact absurd (hres ▸ hg k (by simp) st) (by simp)
      | some s1 => exact ih s1 (fun k2 hk2 => hg k2 (by simp [hk2]))
    · rw [if_neg h]
      exact ih st (fun k2 hk2 => hg k2 (by simp [hk2]))

theorem ifpaint_map_other (ctx : Ctx) (s : QState) (n : Nat) (color kx ky d1 kxp kyp dp1 : Int)
    (q : Nat) (hq : q ≠ n) :
    (if s.map n then paint ctx s n color kx ky d1 kxp kyp dp1 else s).map q = s.map q := by
  by_cases h : s.map n = true
  · rw [if_pos h]; exact paint_map_other ctx s n color kx ky d1 kxp kyp dp1 q hq
  · rw [if_neg h]

theorem ifpaint_facebuf_other (ctx : Ctx) (s : QState) (n : Nat) (color kx ky d1 kxp kyp dp1 : Int)
    (p : Nat) (hp : p ≠ n - ctx.L) :
    (if s.map n then paint ctx s n color kx ky d1 kxp kyp dp1 else s).facebuf p = s.facebuf p := by
  by_cases h : s.map n = true
  · rw [if_pos h]; exact paint_facebuf_other ctx s n color kx ky d1 kxp kyp dp1 p hp
  · rw [if_neg h]

theorem ifpaint_skip (ctx : Ctx) (s : QState) (n : Nat) (color kx ky d1 kxp kyp dp1 : Int)
    (h : s.map n = false) :
    (if s.map n then paint ctx s n color kx ky d1 kxp kyp dp1 else s) = s := by
  rw [h]; rfl

theorem ifpaint_hit (ctx : Ctx) (s : QState) (n : Nat) (color kx ky d1 kxp kyp dp1 : Int)
    (hm : s.map n = true) (hx : occludedX ctx.DX kx d1 kxp dp1 = false)
    (hy : occludedY ctx.DY ky d1 kyp dp1 = false) :
    (if s.map n then paint ctx s n color kx ky d1 kxp kyp dp1 else s).map n = false ∧
    (if s.map n then paint ctx s n color kx ky d1 kxp kyp dp1 else s).facebuf (n - ctx.L) = color := by
  rw [hm]
  simp only [if_pos]
  exact paint_hit ctx s n color kx ky d1 kxp kyp dp1 hx hy

theorem compute_map_other (st : QState) (r q : Nat) (hq : q ≠ r) :
    (st.compute r).map q = st.map q := by
  simp [QState.compute, hq]

theorem compute_facebuf (st : QState) (r p : Nat) :
    (st.compute r).facebuf p = st.facebuf p := rfl

theorem quadRun_pt_untouched (ctx : Ctx) (color d1 dp1 : Int) :
    ∀ (ks : List QKid) (st st' : QState),
    quadRun (fun r2 kx ky kxp kyp s => some (paint ctx s r2 color kx ky d1 kxp kyp dp1)) ks st = some st' →
    ∀ (q p : Nat), (∀ k ∈ ks, k.node ≠ q) → (∀ k ∈ ks, k.node - ctx.L ≠ p) →
    st'.map q = st.map q ∧ st'.facebuf p = st.facebuf p := by
  intro ks
  induction ks with
  | nil =>
    intro st st' h q p _ _
    rw [quadRun] at h
    injection h with hst
    subst hst
    exact ⟨rfl, rfl⟩
  | cons k ks ih =>
    intro st st' h q p hq hp
    rw [quadRun_pt_cons] at h
    obtain ⟨h1, h2⟩ := ih _ st' h q p (fun k2 hk2 => hq k2 (by simp [hk2]))
      (fun k2 hk2 => hp k2 (by simp [hk2]))
    refine ⟨?_, ?_⟩
    · rw [h1]
      exact ifpaint_map_other ctx st k.node color k.kx k.ky d1 k.kxp k.kyp dp1 q
        (fun hc => hq k (by simp) hc.symm)
    · rw [h2]
      exact ifpaint_facebuf_other ctx st k.node color k.kx k.ky d1 k.kxp k.kyp dp1 p
        (fun hc => hp k (by simp) hc.symm)

theorem quadRun_pt_effect (ctx : Ctx) (color d1 dp1 : Int) :
    ∀ (ks : List QKid) (st st' : QState),
    quadRun (fun r2 kx ky kxp kyp s => some (paint ctx s r2 color kx ky d1 kxp kyp dp1)) ks st = some st' →
    List.Pairwise (fun a b => a.node ≠ b.node) ks →
    (∀ k2 ∈ ks, ctx.L ≤ k2.node) →
    ∀ k ∈ ks,
    (st.map k.node = false → st'.map k.node = st.map k.node ∧
      st'.facebuf (k.node - ctx.L) = st.facebuf (k.node - ctx.L)) ∧
    (st.map k.node = true → occludedX ctx.DX k.kx d1 k.kxp dp1 = false →
      occludedY ctx.DY k.ky d1 k.kyp dp1 = false →
      st'.map k.node = false ∧ st'.facebuf (k.node - ctx.L) = color) := by
  intro ks
  induction ks with
  | nil => intro st st' _ _ _ k hk; cases hk
  | cons k0 ks ih =>
    intro st st' h hpair hLlow k hk
    rw [quadRun_pt_cons] at h
    have hhead : ∀ k2 ∈ ks, k0.node ≠ k2.node := by
      intro k2 hk2
      exact (List.pairwise_cons.mp hpair).1 k2 hk2
    rcases List.mem_cons.mp hk with hk0 | hktail
    · subst hk0
      have hne : ∀ k2 ∈ ks, k2.node ≠ k.node := fun k2 hk2 hc => hhead k2 hk2 hc.symm
      have hpx : ∀ k2 ∈ ks, k2.node - ctx.L ≠ k.node - ctx.L := by
        intro k2 hk2 hc
        have h1 := hLlow k2 (by simp [hk2])
        have h2 := hLlow k (by simp)
        exact hne k2 hk2 (by omega)
      constructor
      · intro hm
        rw [ifpaint_skip ctx st k.node color k.kx k.ky d1 k.kxp k.kyp dp1 hm] at h
        exact quadRun_pt_untouched ctx color d1 dp1 ks st st' h k.node (k.node - ctx.L) hne hpx
      · intro hm hox hoy
        obtain ⟨hm1, hf1⟩ := ifpaint_hit ctx st k.node color k.kx k.ky d1 k.kxp k.kyp dp1 hm hox hoy
        obtain ⟨h1, h2⟩ := quadRun_pt_untouched ctx color d1 dp1 ks _ st' h k.node (k.node - ctx.L) hne hpx
        exact ⟨h1.trans hm1, h2.trans hf1⟩
    · have hne0 : k0.node ≠ k.node := hhead k hktail
      have hL0 : ctx.L ≤ k0.node := hLlow k0 (by simp)
      have hLk : ctx.L ≤ k.node := hLlow k (by simp [hktail])
      have hpx0 : k.node - ctx.L ≠ k0.node - ctx.L := fun hc => hne0 (by omega)
      have hmap0 := ifpaint_map_other ctx st k0.node color k0.kx k0.ky d1 k0.kxp k0.kyp dp1
        k.node (fun hc => hne0 hc.symm)
      have hfb0 := ifpaint_facebuf_other ctx st k0.node color k0.kx k0.ky d1 k0.kxp k0.kyp dp1
        (k.node - ctx.L) hpx0
      have hrec := ih _ st' h (List.pairwise_cons.mp hpair).2
        (fun k2 hk2 => hLlow k2 (by simp [hk2])) k hktail
      constructor
      · intro hm
        obtain ⟨h1, h2⟩ := hrec.1 (hmap0.trans hm)
        exact ⟨h1.trans hmap0, h2.trans hfb0⟩
      · intro hm hox hoy
        exact hrec.2 (hmap0.trans hm) hox hoy

theorem tdiv2_ge (m d : Int) (hm : 0 ≤ m) (h : 2*m ≤ d) : m ≤ Int.tdiv d 2 := by
  have hd : 0 ≤ d := le_trans (by linarith) h
  rw [Int.tdiv_eq_ediv hd (by norm_num)]
  omega

theorem pow_step (n r L node : Nat) (h : 3*L + 4 ≤ 3*4^(n+1)*r + 4^(n+1+1))
    (hle : r*4+4 ≤ node) : 3*L + 4 ≤ 3*4^n*node + 4^(n+1) := by
  have he : 3*(4:ℕ)^(n+1)*r + 4^(n+1+1) = 3*4^n*(r*4+4) + 4^(n+1) := by ring
  have h2 : 3*4^n*(r*4+4) ≤ 3*4^n*node := Nat.mul_le_mul (Nat.le_refl _) hle
  linarith [h, he, h2]

theorem octGate_mem (s : OctNode) (t : Nat) (cx cy cd : Int) (c : OCall)
    (hc : c ∈ octGate s t cx cy cd) : c.tag = t ∧ 0 ≤ s.avgcolor t := by
  rw [octGate] at hc
  split at hc
  · next hg =>
    rw [List.mem_singleton] at hc
    subst hc
    exact ⟨rfl, hg⟩
  · cases hc

theorem concCalls_mem (ctx : Ctx) (s : OctNode) (xn yn dn x2 y2 d2 : Int) (c : OCall)
    (hc : c ∈ concCalls ctx s xn yn dn x2 y2 d2) : 0 ≤ s.avgcolor c.tag := by
  rw [concCalls] at hc
  rw [List.mem_append] at hc
  rcases hc with hc | hc
  · split at hc
    · rw [List.mem_append, List.mem_append, List.mem_append] at hc
      rcases hc with ((hc | hc) | hc) | hc
      all_goals (obtain ⟨ht, ha⟩ := octGate_mem _ _ _ _ _ _ hc; rw [ht]; exact ha)
    · cases hc
  · rw [List.mem_append, List.mem_append, List.mem_append] at hc
    rcases hc with ((hc | hc) | hc) | hc
    all_goals (obtain ⟨ht, ha⟩ := octGate_mem _ _ _ _ _ _ hc; rw [ht]; exact ha)

theorem traverse_succ_free (ctx : Ctx) (n : Nat) (st : QState) (r index : Nat)
    (color x y d xp yp dp : Int)
    (hox : occludedX ctx.DX x d xp dp = false) (hoy : occludedY ctx.DY y d yp dp = false) :
    traverse ctx (n+1) st r index color x y d xp yp dp =
      if d ≤ 2*ONE then
        runSeq (fun idx col kx ky kd s => traverse ctx n s r idx col kx ky kd xp yp dp)
          (octCalls ctx index color x y d xp yp dp) st
      else
        quadPhase ctx
          (fun r2 kx ky kxp kyp s =>
            (traverse ctx n s r2 index color kx ky (Int.tdiv d 2) kxp kyp (Int.tdiv dp 2)).map Prod.snd)
          st r color x y d xp yp dp := by
  rw [traverse_succ, if_neg (by simp [hox]), if_neg (by simp [hoy])]

/-- C1: an invocation of `traverse` on quadtree node `r` (called, per its
precondition, only when `map[r]` is still set) returns `true` if and only if
the quadtree subtree rooted at `r` became fully painted as a result of the
call, i.e. iff `map[r]` is cleared in the resulting state; in the
quadtree-recursion branch this is literally `face.compute(r); return
!face.map[r]` (see `quadPhase`), and the octree branch forwards the child
results, as `trav_inv` establishes by induction. -/
theorem claim_C1 (ctx : Ctx) (fuel : Nat) (st : QState) (r index : Nat)
    (color x y d xp yp dp : Int) (b : Bool) (st' : QState)
    (hpre : st.map r = true)
    (heq : traverse ctx fuel st r index color x y d xp yp dp = some (b, st')) :
    (b = true ↔ st'.map r = false) := by
  have h := trav_inv ctx fuel st r index color x y d xp yp dp b st' hpre heq
  subst h
  cases hm : st'.map r <;> simp [hm]

theorem claim_C1_witness :
    stOne.map 1 = true ∧
    traverse ctxS 1 stOne 1 0 0 (2*ONE) 0 0 0 0 0 = some (false, stOne) ∧
    ((false = true) ↔ (stOne.map 1 = false)) :=
  ⟨rfl, trav_occl_skip ctxS 0 stOne 1 0 0 (2*ONE) 0 0 0 0 0 (Or.inl (by decide)),
   claim_C1 ctxS 1 stOne 1 0 0 (2*ONE) 0 0 0 0 0 false stOne rfl
     (trav_occl_skip ctxS 0 stOne 1 0 0 (2*ONE) 0 0 0 0 0 (Or.inl (by decide)))⟩

/-- C9: when the entry occlusion test of `traverse` fails (the subvolume lies
outside the subface region in x or in y, lines 34-35), the call returns
`false` and the quadtree state (both the coverage map and the color buffer)
is returned completely unchanged. -/
theorem claim_C9 (ctx : Ctx) (n : Nat) (st : QState) (r index : Nat)
    (color x y d xp yp dp : Int)
    (h : occludedX ctx.DX x d xp dp = true ∨ occludedY ctx.DY y d yp dp = true) :
    traverse ctx (n+1) st r index color x y d xp yp dp = some (false, st) :=
  trav_occl_skip ctx n st r index color x y d xp yp dp h

theorem claim_C9_witness :
    (occludedX ctxS.DX (2*ONE) 0 0 0 = true ∨ occludedY ctxS.DY 0 0 0 0 = true) ∧
    traverse ctxS 1 stAll 3 0 0 (2*ONE) 0 0 0 0 0 = some (false, stAll) :=
  ⟨Or.inl (by decide), claim_C9 ctxS 0 stAll 3 0 0 (2*ONE) 0 0 0 0 0 (Or.inl (by decide))⟩

/-- C10: `paint` re-applies, before writing, exactly the occlusion tests of
`traverse` (the shared `occludedX`/`occludedY`, lines 97-98 vs 34-35); when a
quadtree leaf's tile fails the test, `paint` returns the state unchanged:
`set_face` is not called and the leaf's map bit is not cleared, so the leaf
keeps its previous color and its map bit keeps its previous (true) value even
though its parent was traversed. -/
theorem claim_C10 (ctx : Ctx) (st : QState) (r : Nat) (color x y d xp yp dp : Int)
    (h : occludedX ctx.DX x d xp dp = true ∨ occludedY ctx.DY y d yp dp = true) :
    paint ctx st r color x y d xp yp dp = st :=
  paint_occl ctx st r color x y d xp yp dp h

theorem claim_C10_witness :
    (occludedX ctxS.DX (2*ONE) 0 0 0 = true ∨ occludedY ctxS.DY 0 0 0 0 = true) ∧
    paint ctxS stAll 24 7 (2*ONE) 0 0 0 0 0 = stAll :=
  ⟨Or.inl (by decide), claim_C10 ctxS stAll 24 7 (2*ONE) 0 0 0 0 0 (Or.inl (by decide))⟩

/-- C7: the precondition that `map[quadnode]` is true holds at every
invocation of `traverse`: (1) the face driver processes a root quadrant only
when its map bit is set (and is the identity otherwise); (2) every quadtree
descent is gated on the child's map bit (skipping the child otherwise); and
(3) the octree branch re-invokes `traverse` on the same quadnode `r`, and a
call that returns `false` leaves `map[r]` set, so the precondition survives
the sequential sibling calls of the octree branch.  Together these show
`traverse` is never entered on a fully painted quadtree node. -/
theorem claim_C7 :
    (∀ (ctx : Ctx) (fuel : Nat) (q : Nat) (cx cy cQ cxp cyp : Int) (st : QState),
      st.map q = false → rootStep ctx fuel q cx cy cQ cxp cyp st = some st) ∧
    (∀ (g : Nat → Int → Int → Int → Int → QState → Option QState)
      (k : QKid) (ks : List QKid) (st : QState),
      st.map k.node = false → quadRun g (k :: ks) st = quadRun g ks st) ∧
    (∀ (ctx : Ctx) (fuel : Nat) (st : QState) (r index : Nat)
      (color x y d xp yp dp : Int) (st' : QState),
      st.map r = true → traverse ctx fuel st r index color x y d xp yp dp = some (false, st') →
      st'.map r = true) := by
  refine ⟨?_, ?_, ?_⟩
  · intro ctx fuel q cx cy cQ cxp cyp st h
    rw [rootStep, if_neg (by simp [h])]
  · intro g k ks st h
    rw [quadRun, if_neg (by simp [h])]
  · intro ctx fuel st r index color x y d xp yp dp st' hpre heq
    have h := trav_inv ctx fuel st r index color x y d xp yp dp false st' hpre heq
    cases hm : st'.map r
    · rw [hm] at h; simp at h
    · rfl

theorem claim_C7_witness :
    (stNone.map 2 = false ∧ rootStep ctxS 3 2 0 0 0 0 0 stNone = some stNone) ∧
    (stNone.map 9 = false ∧
      quadRun (fun _ _ _ _ _ s => some s) [⟨9, 0, 0, 0, 0⟩] stNone =
      quadRun (fun _ _ _ _ _ s => some s) [] stNone) ∧
    (stOne.map 1 = true ∧
      traverse ctxS 1 stOne 1 0 0 (2*ONE) 0 0 0 0 0 = some (false, stOne) ∧
      stOne.map 1 = true) :=
  ⟨⟨rfl, claim_C7.1 ctxS 3 2 0 0 0 0 0 stNone rfl⟩,
   ⟨rfl, claim_C7.2.1 (fun _ _ _ _ _ s => some s) ⟨9, 0, 0, 0, 0⟩ [] stNone rfl⟩,
   ⟨rfl, trav_occl_skip ctxS 0 stOne 1 0 0 (2*ONE) 0 0 0 0 0 (Or.inl (by decide)),
    claim_C7.2.2 ctxS 1 stOne 1 0 0 (2*ONE) 0 0 0 0 0 stOne rfl
      (trav_occl_skip ctxS 0 stOne 1 0 0 (2*ONE) 0 0 0 0 0 (Or.inl (by decide)))⟩⟩

theorem runSeq_all_skip (ctx : Ctx) (fu : Nat) (r : Nat) (xp yp dp : Int) :
    ∀ (cs : List OCall) (st : QState),
    (∀ c ∈ cs, ∀ s, traverse ctx fu s r c.idx c.col c.cx c.cy c.cd xp yp dp = some (false, s)) →
    runSeq (fun idx col kx ky kd s => traverse ctx fu s r idx col kx ky kd xp yp dp) cs st =
      some (false, st) := by
  intro cs
  induction cs with
  | nil => intro st _; rfl
  | cons c cs ih =>
    intro st hc
    rw [runSeq, hc c (by simp) st]
    exact ih st (fun c2 hc2 => hc c2 (by simp [hc2]))

theorem runSeq_skip_then_none (ctx : Ctx) (fu : Nat) (r : Nat) (xp yp dp : Int) :
    ∀ (cs : List OCall) (st : QState) (c : OCall) (rest : List OCall),
    (∀ c2 ∈ cs, ∀ s, traverse ctx fu s r c2.idx c2.col c2.cx c2.cy c2.cd xp yp dp = some (false, s)) →
    traverse ctx fu st r c.idx c.col c.cx c.cy c.cd xp yp dp = none →
    runSeq (fun idx col kx ky kd s => traverse ctx fu s r idx col kx ky kd xp yp dp)
      (cs ++ c :: rest) st = none := by
  intro cs
  induction cs with
  | nil =>
    intro st c rest _ hnone
    rw [List.nil_append, runSeq, hnone]
  | cons c2 cs ih =>
    intro st c rest hc hnone
    rw [List.cons_append, runSeq, hc c2 (by simp) st]
    exact ih st c rest (fun c3 hc3 => hc c3 (by simp [hc3])) hnone

/-- C2 counterexample: in the homogeneous-block (sentinel) branch the
recursion does not continue into every one of the eight child octants: for the
quadrant-3 context the sentinel child-call list with `dn > 0` has only seven
entries, and none of them is the nearest octant `C` (it is skipped, per the
source comment at line 60, to avoid infinite recursion). -/
theorem claim_C2_counterexample :
    (sentCalls ctxS 7 1 2 3 10 20 30).length = 7 ∧
    (sentCalls ctxS 7 1 2 3 10 20 30).all (fun c => !(c.tag == ctxS.C)) = true := by
  exact ⟨by decide, by decide⟩

/-- C2 (amended): in the sentinel (homogeneous infinite block) branch,
`traverse` recurses into seven of the eight child octants - all except the
nearest cube `C` when `dn > 0` (and only the four far octants when
`dn ≤ 0`) - each with the sentinel index and the parent color preserved, and
with no absent-child test applied (the call list never consults `avgcolor`). -/
theorem claim_C2_amended (ctx : Ctx) (n : Nat) (st : QState) (r : Nat)
    (color x y d xp yp dp : Int)
    (hox : occludedX ctx.DX x d xp dp = false) (hoy : occludedY ctx.DY y d yp dp = false)
    (hd : d ≤ 2*ONE) :
    (traverse ctx (n+1) st r ALL_ONES color x y d xp yp dp =
      runSeq (fun idx col kx ky kd s => traverse ctx n s r idx col kx ky kd xp yp dp)
        (sentCalls ctx color ((x - xp)*2) ((y - yp)*2) ((d - dp)*2) (x*2) (y*2) (d*2)) st) ∧
    (∀ c ∈ sentCalls ctx color ((x - xp)*2) ((y - yp)*2) ((d - dp)*2) (x*2) (y*2) (d*2),
      c.idx = ALL_ONES ∧ c.col = color) ∧
    ((sentCalls ctx color ((x - xp)*2) ((y - yp)*2) ((d - dp)*2) (x*2) (y*2) (d*2)).map OCall.tag =
      if 0 < (d - dp)*2 then
        [ctx.C ^^^ ctx.AX, ctx.C ^^^ ctx.AY, ctx.C ^^^ ctx.AX ^^^ ctx.AY,
         ctx.C ^^^ ctx.AZ, ctx.C ^^^ ctx.AX ^^^ ctx.AZ, ctx.C ^^^ ctx.AY ^^^ ctx.AZ,
         ctx.C ^^^ ctx.AX ^^^ ctx.AY ^^^ ctx.AZ]
      else
        [ctx.C ^^^ ctx.AZ, ctx.C ^^^ ctx.AX ^^^ ctx.AZ, ctx.C ^^^ ctx.AY ^^^ ctx.AZ,
         ctx.C ^^^ ctx.AX ^^^ ctx.AY ^^^ ctx.AZ]) := by
  refine ⟨?_, ?_, ?_⟩
  · rw [traverse_succ_free ctx n st r ALL_ONES color x y d xp yp dp hox hoy, if_pos hd,
      octCalls, if_neg (by simp)]
  · intro c hc
    rw [sentCalls, List.mem_append] at hc
    rcases hc with hc | hc
    · split at hc
      · simp only [List.mem_cons, List.not_mem_nil, or_false] at hc
        rcases hc with hc | hc | hc
        all_goals (subst hc; exact ⟨rfl, rfl⟩)
      · cases hc
    · simp only [List.mem_cons, List.not_mem_nil, or_false] at hc
      rcases hc with hc | hc | hc | hc
      all_goals (subst hc; exact ⟨rfl, rfl⟩)
  · by_cases hdn : 0 < (d - dp)*2
    · rw [sentCalls, if_pos hdn, if_pos hdn]
      rfl
    · rw [sentCalls, if_neg hdn, if_neg hdn]
      rfl

theorem claim_C2_witness :
    (traverse ctxS 1 stAll 0 ALL_ONES 7 0 0 0 0 0 (-1) =
      runSeq (fun idx col kx ky kd s => traverse ctxS 0 s 0 idx col kx ky kd 0 0 (-1))
        (sentCalls ctxS 7 0 0 2 0 0 0) stAll) ∧
    ((⟨1, ALL_ONES, 7, -ONE, ONE, 2⟩ : OCall).idx = ALL_ONES ∧
     (⟨1, ALL_ONES, 7, -ONE, ONE, 2⟩ : OCall).col = 7) ∧
    ((sentCalls ctxS 7 0 0 2 0 0 0).map OCall.tag = [1, 2, 3, 4, 5, 6, 7]) := by
  have h := claim_C2_amended ctxS 0 stAll 0 7 0 0 0 0 0 (-1) (by decide) (by decide) (by decide)
  exact ⟨h.1, h.2.1 _ (by decide), h.2.2⟩

/-- C5 counterexample: at `d = 0` the code takes the octree branch (its
condition `d ≤ 2*ONE`, line 38, holds) even though the spec-side condition
(extent exceeding twice the scene size, with nonnegative depth) is false, so
branch selection is not as the claim states.  Behaviorally: the call below
with `d = 0` returns `false` and leaves the quadtree state untouched, whereas
a quadtree recursion would have run `compute` on node 1, clearing its map bit
(as the last two conjuncts show). -/
theorem claim_C5_counterexample :
    octreeBranchCond 0 = true ∧ ¬ specOctreeDescent 0 0 ∧
    traverse ctxS 2 stOne 1 ALL_ONES 5 0 0 0 0 0 1 = some (false, stOne) ∧
    stOne.map 1 = true ∧ (stOne.compute 1).map 1 = false := by
  have hsent : octCalls ctxS ALL_ONES 5 0 0 0 0 0 1 = sentCalls ctxS 5 0 0 (-2) 0 0 0 := by
    rw [octCalls, if_neg (by simp)]
    norm_num
  have hskip : ∀ c ∈ sentCalls ctxS 5 0 0 (-2) 0 0 0, ∀ s : QState,
      traverse ctxS 1 s 1 c.idx c.col c.cx c.cy c.cd 0 0 1 = some (false, s) := by
    intro c hc s
    have hocc : occludedX ctxS.DX c.cx c.cd 0 1 = true ∨
        occludedY ctxS.DY c.cy c.cd 0 1 = true := by
      have hlist : sentCalls ctxS 5 0 0 (-2) 0 0 0 =
          [⟨4, ALL_ONES, 5, ONE, ONE, 0⟩, ⟨5, ALL_ONES, 5, -ONE, ONE, 0⟩,
           ⟨6, ALL_ONES, 5, ONE, -ONE, 0⟩, ⟨7, ALL_ONES, 5, -ONE, -ONE, 0⟩] := by decide
      rw [hlist] at hc
      simp only [List.mem_cons, List.not_mem_nil, or_false] at hc
      rcases hc with hc | hc | hc | hc
      all_goals (subst hc; exact Or.inl (by decide))
    exact trav_occl_skip ctxS 0 s 1 c.idx c.col c.cx c.cy c.cd 0 0 1 hocc
  have htrav : traverse ctxS 2 stOne 1 ALL_ONES 5 0 0 0 0 0 1 = some (false, stOne) := by
    rw [traverse_succ_free ctxS 1 stOne 1 ALL_ONES 5 0 0 0 0 0 1 (by decide) (by decide),
      if_pos (by decide), hsent]
    exact runSeq_all_skip ctxS 1 1 0 0 1 (sentCalls ctxS 5 0 0 (-2) 0 0 0) stOne hskip
  refine ⟨by decide, ?_, htrav, by decide, by decide⟩
  intro hc
  exact absurd hc.2 (by decide)

/-- C5 (amended): branch selection in `traverse` depends only on `d` (line
38): after the occlusion tests pass, the call recurses into the octree exactly
when `d ≤ 2*SCENE_SIZE` (`octreeBranchCond`), and into the quadtree
otherwise; there is no depth parameter and no corner-bounds comparison in this
variant. -/
theorem claim_C5_amended (ctx : Ctx) (n : Nat) (st : QState) (r index : Nat)
    (color x y d xp yp dp : Int)
    (hox : occludedX ctx.DX x d xp dp = false) (hoy : occludedY ctx.DY y d yp dp = false) :
    (octreeBranchCond d = true →
      traverse ctx (n+1) st r index color x y d xp yp dp =
        runSeq (fun idx col kx ky kd s => traverse ctx n s r idx col kx ky kd xp yp dp)
          (octCalls ctx index color x y d xp yp dp) st) ∧
    (octreeBranchCond d = false →
      traverse ctx (n+1) st r index color x y d xp yp dp =
        quadPhase ctx
          (fun r2 kx ky kxp kyp s =>
            (traverse ctx n s r2 index color kx ky (Int.tdiv d 2) kxp kyp (Int.tdiv dp 2)).map Prod.snd)
          st r color x y d xp yp dp) := by
  constructor
  · intro hb
    rw [traverse_succ_free ctx n st r index color x y d xp yp dp hox hoy,
      if_pos (of_decide_eq_true hb)]
  · intro hb
    rw [traverse_succ_free ctx n st r index color x y d xp yp dp hox hoy,
      if_neg (of_decide_eq_false hb)]

theorem claim_C5_witness :
    occludedX ctxS.DX 0 0 0 0 = false ∧ octreeBranchCond 0 = true ∧
    traverse ctxS 1 stAll 0 0 7 0 0 0 0 0 0 =
      runSeq (fun idx col kx ky kd s => traverse ctxS 0 s 0 idx col kx ky kd 0 0 0)
        (octCalls ctxS 0 7 0 0 0 0 0 0) stAll :=
  ⟨by decide, by decide,
   (claim_C5_amended ctxS 0 stAll 0 0 7 0 0 0 0 0 0 (by decide) (by decide)).1 (by decide)⟩

/-- C6: in a concrete-index octree branch, an octant `i` with
`avgcolor[i] < 0` is never traversed: the call list that `traverse` executes
is exactly `concCalls` of the node (first conjunct), and no element of that
list carries the tag of an absent octant (second conjunct), since each
candidate call is gated on `0 ≤ avgcolor` (lines 49-57). -/
theorem claim_C6 (ctx : Ctx) (n : Nat) (st : QState) (r index : Nat)
    (color x y d xp yp dp : Int) (i : Nat)
    (hox : occludedX ctx.DX x d xp dp = false) (hoy : occludedY ctx.DY y d yp dp = false)
    (hd : d ≤ 2*ONE) (hidx : index ≠ ALL_ONES)
    (hneg : (ctx.root index).avgcolor i < 0) :
    (traverse ctx (n+1) st r index color x y d xp yp dp =
      runSeq (fun idx col kx ky kd s => traverse ctx n s r idx col kx ky kd xp yp dp)
        (concCalls ctx (ctx.root index) ((x - xp)*2) ((y - yp)*2) ((d - dp)*2) (x*2) (y*2) (d*2)) st) ∧
    (∀ c ∈ concCalls ctx (ctx.root index) ((x - xp)*2) ((y - yp)*2) ((d - dp)*2) (x*2) (y*2) (d*2),
      c.tag ≠ i) := by
  constructor
  · rw [traverse_succ_free ctx n st r index color x y d xp yp dp hox hoy, if_pos hd,
      octCalls, if_pos hidx]
  · intro c hc htag
    have h := concCalls_mem ctx (ctx.root index) ((x - xp)*2) ((y - yp)*2) ((d - dp)*2)
      (x*2) (y*2) (d*2) c hc
    rw [htag] at h
    exact absurd hneg (by omega)

theorem claim_C6_witness :
    (nodeM.avgcolor 3 < 0) ∧
    ((⟨0, 2, 9, ONE, ONE, 2⟩ : OCall) ∈ concCalls ctxM nodeM 0 0 2 0 0 0) ∧
    ((⟨0, 2, 9, ONE, ONE, 2⟩ : OCall).tag ≠ 3) :=
  ⟨by decide, by decide,
   (claim_C6 ctxM 0 stAll 0 0 7 0 0 0 0 0 (-1) 3 (by decide) (by decide) (by decide)
     (by decide) (by decide)).2 ⟨0, 2, 9, ONE, ONE, 2⟩ (by decide)⟩

theorem trav_cycle_none : ∀ (n : Nat) (st : QState),
    traverse ctxS n st 0 ALL_ONES 5 ONE ONE 0 1 1 0 = none := by
  have hlist : octCalls ctxS ALL_ONES 5 ONE ONE 0 1 1 0 =
      [⟨4, ALL_ONES, 5, 3*ONE, 3*ONE, 0⟩, ⟨5, ALL_ONES, 5, ONE, 3*ONE, 0⟩,
       ⟨6, ALL_ONES, 5, 3*ONE, ONE, 0⟩] ++ ⟨7, ALL_ONES, 5, ONE, ONE, 0⟩ :: [] := by decide
  have hlist0 : octCalls ctxS ALL_ONES 5 ONE ONE 0 1 1 0 =
      [] ++ (⟨4, ALL_ONES, 5, 3*ONE, 3*ONE, 0⟩ :
        OCall) :: [⟨5, ALL_ONES, 5, ONE, 3*ONE, 0⟩,
       ⟨6, ALL_ONES, 5, 3*ONE, ONE, 0⟩, ⟨7, ALL_ONES, 5, ONE, ONE, 0⟩] := by decide
  intro n
  induction n with
  | zero => intro st; rfl
  | succ m ih =>
    intro st
    cases m with
    | zero =>
      rw [traverse_succ_free ctxS 0 st 0 ALL_ONES 5 ONE ONE 0 1 1 0 (by decide) (by decide),
        if_pos (by decide), hlist0]
      exact runSeq_skip_then_none ctxS 0 0 1 1 0 [] st _ _
        (by intro c2 hc2 s; cases hc2) rfl
    | succ j =>
      rw [traverse_succ_free ctxS (j+1) st 0 ALL_ONES 5 ONE ONE 0 1 1 0 (by decide) (by decide),
        if_pos (by decide), hlist]
      refine runSeq_skip_then_none ctxS (j+1) 0 1 1 0 _ st _ [] ?_ (ih st)
      intro c2 hc2 s
      simp only [List.mem_cons, List.not_mem_nil, or_false] at hc2
      rcases hc2 with hc2 | hc2 | hc2
      · subst hc2; exact trav_occl_skip ctxS j s 0 _ _ _ _ _ 1 1 0 (Or.inl (by decide))
      · subst hc2; exact trav_occl_skip ctxS j s 0 _ _ _ _ _ 1 1 0 (Or.inr (by decide))
      · subst hc2; exact trav_occl_skip ctxS j s 0 _ _ _ _ _ 1 1 0 (Or.inl (by decide))

theorem trav_quad_total : ∀ (k : Nat) (ctx : Ctx) (st : QState) (r index : Nat)
    (color x y d xp yp dp : Int),
    2^k * (2*ONE+1) ≤ d → 3*ctx.L + 4 ≤ 3*4^k*r + 4^(k+1) →
    (traverse ctx (k+1) st r index color x y d xp yp dp).isSome = true := by
  intro k
  induction k with
  | zero =>
    intro ctx st r index color x y d xp yp dp hd hL
    have hd2 : 2*ONE < d := by
      rw [pow_zero, one_mul] at hd
      linarith
    have hLr : ctx.L ≤ r := by
      rw [pow_zero] at hL
      rw [pow_one] at hL
      omega
    rw [traverse_succ]
    by_cases hx : occludedX ctx.DX x d xp dp = true
    · rw [if_pos hx]; rfl
    · rw [if_neg hx]
      by_cases hy : occludedY ctx.DY y d yp dp = true
      · rw [if_pos hy]; rfl
      · rw [if_neg hy, if_neg (not_le.mpr hd2), quadPhase, if_neg (not_lt.mpr hLr)]
        have htot := quadRun_isSome
          (fun r2 kx ky kxp kyp s =>
            some (paint ctx s r2 color kx ky (Int.tdiv d 2) kxp kyp (Int.tdiv dp 2)))
          (quadKids r x y d xp yp dp) st (fun k2 _ s => rfl)
        cases hres : quadRun
            (fun r2 kx ky kxp kyp s =>
              some (paint ctx s r2 color kx ky (Int.tdiv d 2) kxp kyp (Int.tdiv dp 2)))
            (quadKids r x y d xp yp dp) st with
        | none => rw [hres] at htot; simp at htot
        | some st1 => rfl
  | succ n ihn =>
    intro ctx st r index color x y d xp yp dp hd hL
    have h2p : (0:Int) < 2^(n+1) := pow_pos (by norm_num) _
    have hONE : (0:Int) < ONE := by norm_num [ONE]
    have h2one : (1:Int) ≤ 2^(n+1) := by omega
    have hd2 : 2*ONE < d := by
      have hm1 : 1*(2*ONE+1) ≤ 2^(n+1)*(2*ONE+1) :=
        mul_le_mul_of_nonneg_right h2one (by omega)
      rw [one_mul] at hm1
      have := le_trans hm1 hd
      linarith
    rw [traverse_succ]
    by_cases hx : occludedX ctx.DX x d xp dp = true
    · rw [if_pos hx]; rfl
    · rw [if_neg hx]
      by_cases hy : occludedY ctx.DY y d yp dp = true
      · rw [if_pos hy]; rfl
      · rw [if_neg hy, if_neg (not_le.mpr hd2), quadPhase]
        by_cases hrL : r < ctx.L
        · rw [if_pos hrL]
          have hd' : 2^n * (2*ONE+1) ≤ Int.tdiv d 2 := by
            refine tdiv2_ge (2^n * (2*ONE+1)) d ?_ ?_
            · have := pow_pos (show (0:Int) < 2 by norm_num) n
              have h1 : (0:Int) ≤ 2^n := le_of_lt this
              have h2 : (0:Int) ≤ 2*ONE+1 := by omega
              positivity
            · calc 2*(2^n * (2*ONE+1)) = 2^(n+1) * (2*ONE+1) := by ring
              _ ≤ d := hd
          have hkid : ∀ k2 ∈ quadKids r x y d xp yp dp, ∀ s : QState,
              ((traverse ctx (n+1) s k2.node index color k2.kx k2.ky (Int.tdiv d 2)
                k2.kxp k2.kyp (Int.tdiv dp 2)).map Prod.snd).isSome = true := by
            intro k2 hk2 s
            have hL' : 3*ctx.L + 4 ≤ 3*4^n*k2.node + 4^(n+1) :=
              pow_step n r ctx.L k2.node hL (quadKids_mem r x y d xp yp dp k2 hk2).1
            have hs := ihn ctx s k2.node index color k2.kx k2.ky (Int.tdiv d 2)
              k2.kxp k2.kyp (Int.tdiv dp 2) hd' hL'
            cases htr : traverse ctx (n+1) s k2.node index color k2.kx k2.ky (Int.tdiv d 2)
                k2.kxp k2.kyp (Int.tdiv dp 2) with
            | none => rw [htr] at hs; simp at hs
            | some bs => rfl
          have htot := quadRun_isSome
            (fun r2 kx ky kxp kyp s =>
              (traverse ctx (n+1) s r2 index color kx ky (Int.tdiv d 2) kxp kyp
                (Int.tdiv dp 2)).map Prod.snd)
            (quadKids r x y d xp yp dp) st hkid
          cases hres : quadRun
              (fun r2 kx ky kxp kyp s =>
                (traverse ctx (n+1) s r2 index color kx ky (Int.tdiv d 2) kxp kyp
                  (Int.tdiv dp 2)).map Prod.snd)
              (quadKids r x y d xp yp dp) st with
          | none => rw [hres] at htot; simp at htot
          | some st1 => rfl
        · rw [if_neg hrL]
          have htot := quadRun_isSome
            (fun r2 kx ky kxp kyp s =>
              some (paint ctx s r2 color kx ky (Int.tdiv d 2) kxp kyp (Int.tdiv dp 2)))
            (quadKids r x y d xp yp dp) st (fun k2 _ s => rfl)
          cases hres : quadRun
              (fun r2 kx ky kxp kyp s =>
                some (paint ctx s r2 color kx ky (Int.tdiv d 2) kxp kyp (Int.tdiv dp 2)))
              (quadKids r x y d xp yp dp) st with
          | none => rw [hres] at htot; simp at htot
          | some st1 => rfl

/-- C3 (amended): quadtree descent does terminate: every quadtree-branch
recursion moves from `r` to a child `r*4+4+i`, and a call at the paint level
(`r ≥ L`) makes no recursive call, so whenever `d` is large enough to force
the quadtree branch for `k` consecutive levels and `r` is deep enough to reach
the paint level within those `k` levels, `traverse` completes within fuel
`k+1`.  (Octree recursion, by contrast, decreases no depth parameter - the
sentinel branch keeps the sentinel index - and `traverse` as a whole does not
terminate on every argument, see the counterexample.) -/
theorem claim_C3_amended : ∀ (k : Nat) (ctx : Ctx) (st : QState) (r index : Nat)
    (color x y d xp yp dp : Int),
    2^k * (2*ONE+1) ≤ d → 3*ctx.L + 4 ≤ 3*4^k*r + 4^(k+1) →
    (traverse ctx (k+1) st r index color x y d xp yp dp).isSome = true := trav_quad_total

theorem claim_C3_witness :
    ((2:Int)^0 * (2*ONE+1) ≤ 2*ONE+1) ∧ (3*ctxS.L + 4 ≤ 3*4^0*5 + 4^(0+1)) ∧
    (traverse ctxS 1 stAll 5 0 0 0 0 (2*ONE+1) 0 0 0).isSome = true :=
  ⟨by norm_num, by norm_num [ctxS], claim_C3_amended 0 ctxS stAll 5 0 0 0 0 (2*ONE+1) 0 0 0
    (by norm_num) (by norm_num [ctxS])⟩

theorem runSeq_map_pres (q : Nat) (f : Nat → Int → Int → Int → Int → QState → Option (Bool × QState))
    (hf : ∀ idx col kx ky kd s bb s', f idx col kx ky kd s = some (bb, s') → s'.map q = s.map q) :
    ∀ (cs : List OCall) (st : QState) (b : Bool) (st' : QState),
      runSeq f cs st = some (b, st') → st'.map q = st.map q := by
  intro cs
  induction cs with
  | nil =>
    intro st b st' h
    rw [runSeq] at h
    injection h with h1
    injection h1 with _ hst
    subst hst
    rfl
  | cons c cs ih =>
    intro st b st' h
    rw [runSeq] at h
    split at h
    · exact absurd h (by simp)
    · next s1 heq =>
      injection h with h1
      injection h1 with _ hst
      subst hst
      exact hf _ _ _ _ _ _ _ _ heq
    · next s1 heq =>
      exact (ih s1 b st' h).trans (hf _ _ _ _ _ _ _ _ heq)

theorem quadRun_map_pres (q : Nat) (g : Nat → Int → Int → Int → Int → QState → Option QState) :
    ∀ (ks : List QKid) (st st' : QState),
    (∀ k ∈ ks, ∀ s s', g k.node k.kx k.ky k.kxp k.kyp s = some s' → s'.map q = s.map q) →
    quadRun g ks st = some st' → st'.map q = st.map q := by
  intro ks
  induction ks with
  | nil =>
    intro st st' _ h
    rw [quadRun] at h
    injection h with hst
    subst hst
    rfl
  | cons k ks ih =>
    intro st st' hg h
    rw [quadRun] at h
    split at h
    · split at h
      · exact absurd h (by simp)
      · next s1 heq =>
        exact (ih s1 st' (fun k2 hk2 => hg k2 (by simp [hk2])) h).trans (hg k (by simp) _ _ heq)
    · exact ih st st' (fun k2 hk2 => hg k2 (by simp [hk2])) h

theorem trav_map_bound (ctx : Ctx) : ∀ (fuel : Nat) (st : QState) (r index : Nat)
    (color x y d xp yp dp : Int) (b : Bool) (st' : QState),
    traverse ctx fuel st r index color x y d xp yp dp = some (b, st') →
    ∀ q, q ≠ r → q < r*4+4 → st'.map q = st.map q := by
  intro fuel
  induction fuel with
  | zero =>
    intro st r index color x y d xp yp dp b st' h q _ _
    rw [show traverse ctx 0 st r index color x y d xp yp dp = none from rfl] at h
    cases h
  | succ n ih =>
    intro st r index color x y d xp yp dp b st' h q hqr hqlt
    rw [traverse_succ] at h
    by_cases hx : occludedX ctx.DX x d xp dp = true
    · rw [if_pos hx] at h
      injection h with h1
      injection h1 with _ hst
      subst hst
      rfl
    · rw [if_neg hx] at h
      by_cases hy : occludedY ctx.DY y d yp dp = true
      · rw [if_pos hy] at h
        injection h with h1
        injection h1 with _ hst
        subst hst
        rfl
      · rw [if_neg hy] at h
        by_cases hd : d ≤ 2*ONE
        · rw [if_pos hd] at h
          exact runSeq_map_pres q _
            (fun idx col kx ky kd s bb s' he => ih s r idx col kx ky kd xp yp dp bb s' he q hqr hqlt)
            _ st b st' h
        · rw [if_neg hd] at h
          rw [quadPhase] at h
          split at h
          · cases h
          · next st1 hrun =>
            injection h with h1
            injection h1 with _ hst
            subst hst
            rw [compute_map_other st1 r q hqr]
            by_cases hrL : r < ctx.L
            · rw [if_pos hrL] at hrun
              refine quadRun_map_pres q _ (quadKids r x y d xp yp dp) st st1 ?_ hrun
              intro k hk s s' he
              have hb := quadKids_mem r x y d xp yp dp k hk
              cases htr : traverse ctx n s k.node index color k.kx k.ky (Int.tdiv d 2) k.kxp
                  k.kyp (Int.tdiv dp 2) with
              | none => rw [htr] at he; cases he
              | some bs =>
                rw [htr] at he
                injection he with hs'
                subst hs'
                exact ih s k.node index color k.kx k.ky (Int.tdiv d 2) k.kxp k.kyp
                  (Int.tdiv dp 2) bs.1 bs.2 (by rw [htr]) q (by omega) (by omega)
            · rw [if_neg hrL] at hrun
              refine quadRun_map_pres q _ (quadKids r x y d xp yp dp) st st1 ?_ hrun
              intro k hk s s' he
              have hb := quadKids_mem r x y d xp yp dp k hk
              injection he with hs'
              subst hs'
              exact paint_map_other ctx s k.node color k.kx k.ky (Int.tdiv d 2) k.kxp k.kyp
                (Int.tdiv dp 2) q (by omega)

theorem quadRun_gatefalse_pres (g : Nat → Int → Int → Int → Int → QState → Option QState) (q : Nat) :
    ∀ (ks : List QKid) (st st' : QState),
    (∀ k ∈ ks, ∀ s s', k.node ≠ q → g k.node k.kx k.ky k.kxp k.kyp s = some s' → s'.map q = s.map q) →
    quadRun g ks st = some st' → st.map q = false → st'.map q = false := by
  intro ks
  induction ks with
  | nil =>
    intro st st' _ h hq
    rw [quadRun] at h
    injection h with hst
    subst hst
    exact hq
  | cons k ks ih =>
    intro st st' hg h hq
    rw [quadRun] at h
    split at h
    · next hmap =>
      have hne : k.node ≠ q := by
        intro hc
        rw [hc, hq] at hmap
        cases hmap
      split at h
      · exact absurd h (by simp)
      · next s1 heq =>
        exact ih s1 st' (fun k2 hk2 => hg k2 (by simp [hk2])) h
          ((hg k (by simp) st s1 hne heq).trans hq)
    · exact ih st st' (fun k2 hk2 => hg k2 (by simp [hk2])) h hq

/-- C4: in the quadtree-recursion branch, a child `r*4+4+i` of
`quadnode = r` is descended into (internal level, `r < L`) or painted (leaf
level, `r ≥ L`) only when its coverage bit `map[r*4+4+i]` is set.  First
conjunct: the descent sequencer skips a child whose map bit is false - no
recursive `traverse` call is made for it and the state passes through
unchanged.  Second conjunct: consequently, at the internal level a child with
a false map bit still has a false map bit after the call (its subtree was not
entered).  Third conjunct: at the paint level, a skipped child keeps its map
bit and pixel exactly as they were, and a child with a set map bit whose tile
passes `paint`'s occlusion gets `set_face`: the current octree color is
stored at the leaf's pixel `r*4+4+i - L` and the leaf's map bit is
cleared. -/
theorem claim_C4 (ctx : Ctx) (n : Nat) (st : QState) (r index : Nat)
    (color x y d xp yp dp : Int) (b : Bool) (st' : QState)
    (hox : occludedX ctx.DX x d xp dp = false) (hoy : occludedY ctx.DY y d yp dp = false)
    (hd : 2*ONE < d)
    (heq : traverse ctx (n+1) st r index color x y d xp yp dp = some (b, st')) :
    (∀ (k : QKid) (ks : List QKid) (s : QState), s.map k.node = false →
      quadRun (fun r2 kx ky kxp kyp s2 =>
          (traverse ctx n s2 r2 index color kx ky (Int.tdiv d 2) kxp kyp (Int.tdiv dp 2)).map Prod.snd)
        (k :: ks) s =
      quadRun (fun r2 kx ky kxp kyp s2 =>
          (traverse ctx n s2 r2 index color kx ky (Int.tdiv d 2) kxp kyp (Int.tdiv dp 2)).map Prod.snd)
        ks s) ∧
    (r < ctx.L → ∀ k ∈ quadKids r x y d xp yp dp, st.map k.node = false →
      st'.map k.node = false) ∧
    (ctx.L ≤ r → ∀ k ∈ quadKids r x y d xp yp dp,
      (st.map k.node = false → st'.map k.node = st.map k.node ∧
        st'.facebuf (k.node - ctx.L) = st.facebuf (k.node - ctx.L)) ∧
      (st.map k.node = true →
        occludedX ctx.DX k.kx (Int.tdiv d 2) k.kxp (Int.tdiv dp 2) = false →
        occludedY ctx.DY k.ky (Int.tdiv d 2) k.kyp (Int.tdiv dp 2) = false →
        st'.map k.node = false ∧ st'.facebuf (k.node - ctx.L) = color)) := by
  rw [traverse_succ_free ctx n st r index color x y d xp yp dp hox hoy,
    if_neg (not_le.mpr hd), quadPhase] at heq
  refine ⟨?_, ?_, ?_⟩
  · intro k ks s hm
    rw [quadRun, if_neg (by simp [hm])]
  · intro hrL k hk hm
    rw [if_pos hrL] at heq
    split at heq
    · cases heq
    · next st1 hrun =>
      injection heq with h1
      injection h1 with hb hst
      subst hst
      have hne_r : k.node ≠ r := by
        have := quadKids_mem r x y d xp yp dp k hk
        omega
      rw [compute_map_other st1 r k.node hne_r]
      refine quadRun_gatefalse_pres _ k.node (quadKids r x y d xp yp dp) st st1 ?_ hrun hm
      intro k2 hk2 s s' hne he
      have hb2 := quadKids_mem r x y d xp yp dp k2 hk2
      have hbk := quadKids_mem r x y d xp yp dp k hk
      cases htr : traverse ctx n s k2.node index color k2.kx k2.ky (Int.tdiv d 2) k2.kxp
          k2.kyp (Int.tdiv dp 2) with
      | none => rw [htr] at he; cases he
      | some bs =>
        rw [htr] at he
        injection he with hs2
        subst hs2
        exact trav_map_bound ctx n s k2.node index color k2.kx k2.ky (Int.tdiv d 2) k2.kxp
          k2.kyp (Int.tdiv dp 2) bs.1 bs.2 (by rw [htr]) k.node (fun hc => hne hc.symm) (by omega)
  · intro hrL k hk
    rw [if_neg (not_lt.mpr hrL)] at heq
    split at heq
    · cases heq
    · next st1 hrun =>
      injection heq with h1
      injection h1 with hb hst
      subst hst
      have hpair : List.Pairwise (fun a b : QKid => a.node ≠ b.node)
          (quadKids r x y d xp yp dp) := by
        simp [quadKids]
      have hLlow : ∀ k2 ∈ quadKids r x y d xp yp dp, ctx.L ≤ k2.node := by
        intro k2 hk2
        have := quadKids_mem r x y d xp yp dp k2 hk2
        omega
      have heff := quadRun_pt_effect ctx color (Int.tdiv d 2) (Int.tdiv dp 2)
        (quadKids r x y d xp yp dp) st st1 hrun hpair hLlow k hk
      have hne_r : k.node ≠ r := by
        have := quadKids_mem r x y d xp yp dp k hk
        omega
      constructor
      · intro hm
        obtain ⟨h1, h2⟩ := heff.1 hm
        rw [compute_map_other st1 r k.node hne_r, compute_facebuf]
        exact ⟨h1, h2⟩
      · intro hm hkx hky
        obtain ⟨h1, h2⟩ := heff.2 hm hkx hky
        rw [compute_map_other st1 r k.node hne_r, compute_facebuf]
        exact ⟨h1, h2⟩

theorem claim_C4_witness :
    stAll.map 24 = true ∧
    ((traverse ctxS 1 stAll 5 0 7 0 0 (2*ONE+2) 0 0 0).elim False
      (fun bs => bs.2.map 24 = false ∧ bs.2.facebuf 19 = 7)) ∧
    stC4.map 8 = false ∧
    ((traverse ctxS 2 stC4 1 0 7 0 0 (4*ONE+2) 0 0 0).elim False
      (fun bs => bs.2.map 8 = false)) := by
  refine ⟨rfl, ?_, rfl, ?_⟩
  · cases hres : traverse ctxS 1 stAll 5 0 7 0 0 (2*ONE+2) 0 0 0 with
    | none =>
      have hs : (traverse ctxS 1 stAll 5 0 7 0 0 (2*ONE+2) 0 0 0).isSome = true :=
        trav_quad_total 0 ctxS stAll 5 0 7 0 0 (2*ONE+2) 0 0 0 (by norm_num) (by norm_num [ctxS])
      rw [hres] at hs
      simp at hs
    | some bs =>
      have h := claim_C4 ctxS 0 stAll 5 0 7 0 0 (2*ONE+2) 0 0 0 bs.1 bs.2
        (by decide) (by decide) (by decide) hres
      have h24 := h.2.2 (by decide) ⟨24, 0, 0, 0, 0⟩ (by decide)
      exact h24.2 rfl (by decide) (by decide)
  · cases hres : traverse ctxS 2 stC4 1 0 7 0 0 (4*ONE+2) 0 0 0 with
    | none =>
      have hs : (traverse ctxS 2 stC4 1 0 7 0 0 (4*ONE+2) 0 0 0).isSome = true :=
        trav_quad_total 1 ctxS stC4 1 0 7 0 0 (4*ONE+2) 0 0 0 (by norm_num [ONE]) (by norm_num [ctxS])
      rw [hres] at hs
      simp at hs
    | some bs =>
      have h := claim_C4 ctxS 1 stC4 1 0 7 0 0 (4*ONE+2) 0 0 0 bs.1 bs.2
        (by decide) (by decide) (by decide) hres
      exact h.2.1 (by decide) ⟨8, 0, 0, 0, 0⟩ (by decide) rfl

/-- C8: the per-face query clears every pixel of the output buffer to the
sentinel color `0xC0C0C0C0` before rendering (`memset` at line 222, see
`drawFace`), and the traversal overwrites pixels only through `set_face`
(which also clears the painted leaf's coverage bit, which nothing ever sets
again); hence after rendering every pixel holds either the sentinel color or a
color painted by `traverse` - witnessed by its leaf's cleared coverage bit. -/
theorem claim_C8 (C AX AY AZ : Nat) (root : Nat → OctNode) (L : Nat) (fuel : Nat)
    (x y Q : Int) (st st' : QState)
    (heq : drawFace C AX AY AZ root L fuel x y Q st = some st') :
    ∀ p, st'.facebuf p = CLEAR_COLOR ∨ st'.map (L + p) = false := by
  rw [drawFace] at heq
  have hfr := renderFace_frame C AX AY AZ root L fuel x y Q ⟨st.map, fun _ => CLEAR_COLOR⟩ st' heq
  intro p
  by_cases hc : st'.facebuf p = CLEAR_COLOR
  · exact Or.inl hc
  · right
    have hne : st'.facebuf p ≠ (⟨st.map, fun _ => CLEAR_COLOR⟩ : QState).facebuf p := hc
    exact (hfr.1 p hne).2

theorem claim_C8_witness :
    (drawFace 0 1 2 4 (fun _ => node0) 5 1 0 0 0 stNone =
      some ⟨stNone.map, fun _ => CLEAR_COLOR⟩) ∧
    ((⟨stNone.map, fun _ => CLEAR_COLOR⟩ : QState).facebuf 0 = CLEAR_COLOR ∨
      (⟨stNone.map, fun _ => CLEAR_COLOR⟩ : QState).map (5 + 0) = false) :=
  ⟨rfl, claim_C8 0 1 2 4 (fun _ => node0) 5 1 0 0 0 stNone
    ⟨stNone.map, fun _ => CLEAR_COLOR⟩ rfl 0⟩

/-- C3 counterexample: not every call of `traverse` terminates.  In the
homogeneous-block branch with arguments `x = y = SCENE_SIZE`, `d = 0`,
`xp = yp = 1`, `dp = 0`, the far `(-DX,-DY)` child call repeats exactly the
parent's arguments, so the recursion never returns: the fuel-indexed embedding
of this concrete call completes at no fuel whatsoever. -/
theorem claim_C3_counterexample :
    (∃ n : Nat, (traverse ctxS n stAll 0 ALL_ONES 5 ONE ONE 0 1 1 0).isSome = true) = False := by
  refine eq_false ?_
  rintro ⟨n, hn⟩
  rw [trav_cycle_none n stAll] at hn
  simp at hn
